import Mathlib

/-!
# Discovery phase and account state of the sync client

A shallow embedding of the parts of `src/libsync/discoveryphase.h`,
`src/gui/accountstate.cpp` and `src/gui/creds/httpcredentialsgui.cpp` that the
specification talks about, followed by the theorems that settle the
specification's claims.

Conventions of the embedding:

* a `QString` that only matters as text is a list of characters; a `QString`
  whose null state is observed (`isNull`) is an `Option`, `none` being the
  null string;
* a `QMap<K, V>` is an association list read with `List.lookup` (first
  binding of a key wins, so every list denotes one map);
* C++ `int` counters are `Int`; none of the modelled operations can overflow
  on the inputs considered;
* calls that leave the modelled object (signals, credential requests,
  connection checks) are returned as an ordered list of effects.
-/

namespace OCC

/-! ## Basic types -/

/-- Text of a `QString`, as the list of its characters. -/
abbrev QString := List Char

/-- Bytes of a `QByteArray`; the default-constructed array is the empty list. -/
abbrev QByteArray := List Nat

/-- Association-list view of `QMap<QString, V>`. -/
abbrev QMap (V : Type) := List (QString × V)

/-- Modelled from the spec: `RemotePermissions` is declared in a header that is
not among the sources; the spec calls it "permission flags", kept here as the
raw flag bits. -/
structure RemotePermissions where
  _value : Nat := 0
deriving DecidableEq, Repr

/-! ## `RemoteInfo` and `LocalInfo` (discoveryphase.h, lines 48-77) -/

/-- Meta-data about a file on the server (`struct RemoteInfo`). The field
`name` is `none` for a null `QString`. -/
structure RemoteInfo where
  name : Option QString := none
  etag : QByteArray := []
  fileId : QByteArray := []
  checksumHeader : QByteArray := []
  remotePerm : RemotePermissions := {}
  modtime : Int := 0
  size : Int := 0
  isDirectory : Bool := false
  directDownloadUrl : Option QString := none
  directDownloadCookies : Option QString := none
deriving DecidableEq, Repr

/-- The member `bool isValid() const { return !name.isNull(); }` of `RemoteInfo`. -/
def RemoteInfo.isValid (r : RemoteInfo) : Bool := !r.name.isNone

/-- Meta-data about a local file (`struct LocalInfo`). -/
structure LocalInfo where
  name : Option QString := none
  modtime : Int := 0
  size : Int := 0
  inode : Nat := 0
  isDirectory : Bool := false
  isHidden : Bool := false
  isVirtualFile : Bool := false
  isSymLink : Bool := false
deriving DecidableEq, Repr

/-- The member `bool isValid() const { return !name.isNull(); }` of `LocalInfo`. -/
def LocalInfo.isValid (l : LocalInfo) : Bool := !l.name.isNone

/-! ## Paths -/

/-- Reading of "ancestor" for slash-separated paths: `q` is a proper ancestor of
`p` when `q` is not empty and `p` is `q`, then a `/`, then any text. The empty
text in front of a leading slash names no directory and is not an ancestor. -/
def isProperAncestor (q p : QString) : Bool := !q.isEmpty && (q ++ ['/']).isPrefixOf p

/-- All ways to cut a text in front of one of its slashes, as pairs (text before
the slash, rest of the text starting at the slash), the longest first part
first. -/
def slashSplits : QString → List (QString × QString)
  | [] => []
  | c :: rest =>
    let deeper := (slashSplits rest).map (fun ps => (c :: ps.1, ps.2))
    if c = '/' then deeper ++ [([], c :: rest)] else deeper

/-- All ways to cut a path into a parent directory and the rest of the path
starting at a slash, the nearest parent first: the cuts in front of every slash
but a leading one. -/
def parentSplits : QString → List (QString × QString)
  | [] => []
  | c :: rest => (slashSplits rest).map (fun ps => (c :: ps.1, ps.2))

/-- The order of `QString::operator<`: character by character, a proper
beginning of a text sorting before the text. -/
def qstringLt : QString → QString → Bool
  | [], [] => false
  | [], _ :: _ => true
  | _ :: _, [] => false
  | a :: as, b :: bs =>
    if a.toNat < b.toNat then true
    else if b.toNat < a.toNat then false
    else qstringLt as bs

/-- The test of `std::is_sorted` on a `QStringList`: no entry sorts before its
predecessor. -/
def isSorted : List QString → Bool
  | [] => true
  | [_] => true
  | a :: b :: rest => !qstringLt b a && isSorted (b :: rest)

/-- A path in directory form: with a slash at its end. The root `/` and an entry
written with a trailing slash are in that form already. -/
def withSlash (p : QString) : QString :=
  if p.getLast? = some '/' then p else p ++ ['/']

/-- Reading of "`e` is `p` or an ancestor of `p`" for selective-sync entries:
the directory form of `e` begins the directory form of `p`. So `A`, `A/` and
`A/B` are at or above `A/B`, the root `/` is at or above `/X/Y`, and `A` is not
at or above `AB`. The empty entry has the directory form `/` and reads as the
root. -/
def isAtOrAbove (e p : QString) : Bool := (withSlash e).isPrefixOf (withSlash p)

/-- Modelled from the spec: the lookup in a selective-sync list, which the spec
requires "to be kept in sorted order to support efficient ancestor-prefix
lookups". The sorted list is read from its start and the last entry found at or
above the path is kept; reading stops at the first entry that sorts after the
directory form of the path, because neither it nor any later entry can begin
that form. In a sorted list the entry kept is the nearest one: the path itself
if it is listed, else its closest listed ancestor. -/
def nearestEntry (path : QString) : List QString → Option QString → Option QString
  | [], best => best
  | e :: rest, best =>
    if qstringLt (withSlash path) e then best
    else if isAtOrAbove e path then nearestEntry path rest (some e)
    else nearestEntry path rest best

/-! ## `DiscoveryPhase` (discoveryphase.h, lines 128-208)

The header declares the data members and the member functions; the function
bodies live in `discoveryphase.cpp`, which is not among the sources. -/

/-- Modelled from the spec: `SyncFileItem` is declared in `syncfileitem.h`,
which is not among the sources; of the "DiscoveredItem" only the path and the
content tag ("etag") matter here. -/
structure SyncFileItem where
  _file : QString := []
  _etag : QByteArray := []
deriving DecidableEq, Repr

/-- Modelled from the spec: `ProcessDirectoryJob` (the "Directory Comparison
Job") is only forward-declared in the header; it is kept as a handle for one
directory path together with that directory's prior content tag, which is what
the "Pending Deletion Set" pairs a job handle with. -/
structure ProcessDirectoryJob where
  path : QString := []
  etag : QByteArray := []
deriving DecidableEq, Repr

/-- Modelled from the spec: `SyncOptions` is declared in `syncoptions.h`, which
is not among the sources; of the configuration inputs only the "concurrency cap
(integer)" is needed. -/
structure SyncOptions where
  concurrencyCap : Int := 0
deriving DecidableEq, Repr

/-- Modelled from the spec: the states of the orchestrator's state machine
("Idle", "Running", "Finished"); the header has no such member. -/
inductive Phase where
  | Idle
  | Running
  | Finished
deriving DecidableEq, Repr

/-- Data members of `class DiscoveryPhase` that the modelled operations use.
The members up to `_syncOptions` are the header's. The last two are modelled
from the spec, which gives the "Concurrency State" a "queue of jobs eligible to
start" and the orchestrator a state machine; the header has no member for
either. -/
structure DiscoveryPhase where
  _currentRootJob : Option ProcessDirectoryJob := none
  _deletedItem : QMap SyncFileItem := []
  _queuedDeletedDirectories : QMap ProcessDirectoryJob := []
  _renamedItemsRemote : QMap QString := []
  _renamedItemsLocal : QMap QString := []
  _currentlyActiveJobs : Int := 0
  _selectiveSyncBlackList : List QString := []
  _selectiveSyncWhiteList : List QString := []
  _syncOptions : SyncOptions := {}
  queuedJobs : List ProcessDirectoryJob := []
  phase : Phase := Phase.Idle
deriving DecidableEq, Repr

/-- Modelled from the spec: the body of the free function
`adjustRenamedPath(renamedItems, original)`, which the header calls the
"Implementation of DiscoveryPhase::adjustRenamedPath", is in
`discoveryphase.cpp`, which is not among the sources. The header documents it:
"it only considers parent directory renames. So if A/B got renamed to C/D,
checking A/B/file would yield C/D/file, but checking A/B would yield A/B"; the
spec: "resolves only ancestor segments, exact-path hits are not substituted".
The parent directories of `original` are tried from the nearest one up; the
first one that is a key of the table is replaced by its target and the rest of
the path is kept; without such a parent the path is returned as it is. -/
def adjustRenamedPath (renamedItems : QMap QString) (original : QString) : QString :=
  match (parentSplits original).findSome?
      (fun ps => (renamedItems.lookup ps.1).map (fun target => target ++ ps.2)) with
  | some adjusted => adjusted
  | none => original

/-- Modelled from the spec: the body of
`DiscoveryPhase::isInSelectiveSyncBlackList` is in `discoveryphase.cpp`, which
is not among the sources. The spec: "a path is selectively excluded iff it or
any ancestor is in the blacklist and not overridden by a more specific
whitelist entry". The nearest blacklist entry at or above the path is looked up
in the sorted blacklist; the path is excluded when there is one and no
whitelist entry lies between it and the path (both included). -/
def DiscoveryPhase.isInSelectiveSyncBlackList (d : DiscoveryPhase) (path : QString) : Bool :=
  match nearestEntry path d._selectiveSyncBlackList none with
  | none => false
  | some b =>
    !(d._selectiveSyncWhiteList.any fun w => isAtOrAbove b w && isAtOrAbove w path)

/-- Removal of every binding of a key from an association list (`QMap::erase`,
`QMap::take`). -/
def eraseKey {V : Type} (m : QMap V) (key : QString) : QMap V :=
  m.filter (fun kv => kv.1 != key)

/-- A pending deletion that has been cancelled: the deleted item or the queued
directory job that was bound to the path. Cancelling acts on the item or the
job, which are objects outside the orchestrator; like every call that leaves
the modelled object it is returned as an effect. -/
inductive CancelledDeletion where
  | item (path : QString) (item : SyncFileItem)
  | job (path : QString) (job : ProcessDirectoryJob)
deriving DecidableEq, Repr

/-- Modelled from the spec: the body of `DiscoveryPhase::findAndCancelDeletedJob`
is in `discoveryphase.cpp`, which is not among the sources. The header documents
it: "Check if there is already a job to delete that item. If that's not the
case, return { false, QByteArray() }. If there is such a job, cancel that job
and return true and the old etag"; the spec: "cancel the pending deletion job
and remove it from the set". A deletion is pending for a path when the path is a
key of `_deletedItem` or of `_queuedDeletedDirectories`. Whatever is bound to
the path is cancelled and the path is removed from both tables; the old etag is
the deleted item's, or the queued directory job's when no deleted item is
bound. The result is the returned pair, the orchestrator afterwards, and the
deletions cancelled. -/
def DiscoveryPhase.findAndCancelDeletedJob (d : DiscoveryPhase) (originalPath : QString) :
    (Bool × QByteArray) × DiscoveryPhase × List CancelledDeletion :=
  let removed : DiscoveryPhase :=
    { d with
      _deletedItem := eraseKey d._deletedItem originalPath,
      _queuedDeletedDirectories := eraseKey d._queuedDeletedDirectories originalPath }
  match d._deletedItem.lookup originalPath, d._queuedDeletedDirectories.lookup originalPath with
  | some item, some job =>
    ((true, item._etag), removed,
      [CancelledDeletion.item originalPath item, CancelledDeletion.job originalPath job])
  | some item, none =>
    ((true, item._etag), removed, [CancelledDeletion.item originalPath item])
  | none, some job =>
    ((true, job.etag), removed, [CancelledDeletion.job originalPath job])
  | none, none => ((false, []), d, [])

/-- The enumeration `AccountState::State`; its members are the cases of
`AccountState::stateString`. -/
inductive State where
  | SignedOut
  | Disconnected
  | Connected
  | ServerMaintenance
  | NetworkError
  | ConfigurationError
  | TemporaryCredentialError
deriving DecidableEq, Repr

/-- The enumeration `ConnectionValidator::Status`; its members are the cases of
the switch in `AccountState::slotConnectionValidatorResult`. -/
inductive Status where
  | Undefined
  | Connected
  | NotConfigured
  | ServerVersionMismatch
  | CredentialsWrong
  | StatusNotFound
  | UserCanceledCredentials
  | ServerMaintenance
  | Timeout
deriving DecidableEq, Repr

/-- Calls that leave the `AccountState` object, in the order they are made. -/
inductive Effect where
  /-- The signal `stateChanged(_state)`. -/
  | stateChanged (s : State)
  /-- The call `conValidator->checkAuthentication()`. -/
  | checkAuthentication
  /-- The call `conValidator->checkServerAndAuth()`. -/
  | checkServerAndAuth
  /-- The call `credentials->fetch()`. -/
  | credentialsFetch
  /-- The call `credentials->invalidateAndFetch()`. -/
  | credentialsInvalidateAndFetch
  /-- The call `account()->handleInvalidCredentials()`. -/
  | handleInvalidCredentials
deriving DecidableEq, Repr

/-- Data members of `AccountState` that the slots read or write.
`_firstInvalidCredentialTimer` holds what `elapsed()` would return at the
moment of the call, in milliseconds; `restart()` sets it to `0`. -/
structure AccountState where
  _state : State := State.Disconnected
  _connectionStatus : Status := Status.Undefined
  _connectionErrors : List QString := []
  _waitingForNewCredentials : Bool := false
  _firstInvalidCredentialTimer : Int := 0
deriving DecidableEq, Repr

/-- The credentials object handed to `slotInvalidCredentials`. `ready` is the
result of `credentials->ready()`. `fetch` and `invalidateAndFetch` are declared
in `creds/abstractcredentials.h`, which is not among the sources: each is taken
as a parameter, namely what the call has done to the account state by the time
it returns (a synchronous `credentialsFetched` may already have run
`slotCredentialsFetched`). -/
structure AbstractCredentials where
  ready : Bool
  fetch : AccountState → AccountState
  invalidateAndFetch : AccountState → AccountState

/-- `AccountState::isSignedOut`. -/
def AccountState.isSignedOut (a : AccountState) : Bool := a._state == State.SignedOut

/-- `AccountState::isConnected`. -/
def AccountState.isConnected (a : AccountState) : Bool := a._state == State.Connected

/-- `AccountState::connectionStatus`. -/
def AccountState.connectionStatus (a : AccountState) : Status := a._connectionStatus

/-- `AccountState::connectionErrors`. -/
def AccountState.connectionErrors (a : AccountState) : List QString := a._connectionErrors

/-- `AccountState::state`. -/
def AccountState.state (a : AccountState) : State := a._state

/-- `AccountState::checkConnectivity`: nothing happens when signed out or
waiting for new credentials; otherwise a validator is started with
`checkAuthentication` when connected and `checkServerAndAuth` when not. No data
member changes (the `Q_OS_WIN` reset of the network access manager is outside
the object). -/
def AccountState.checkConnectivity (a : AccountState) : List Effect :=
  if a.isSignedOut || a._waitingForNewCredentials then []
  else if a.isConnected then [Effect.checkAuthentication]
  else [Effect.checkServerAndAuth]

/-- `AccountState::setState`. -/
def AccountState.setState (a : AccountState) (state : State) : AccountState × List Effect :=
  if a._state != state then
    let oldState := a._state
    let a1 : AccountState := { a with _state := state }
    if a1._state == State.SignedOut then
      let a2 : AccountState :=
        { a1 with _connectionStatus := Status.Undefined, _connectionErrors := [] }
      (a2, [Effect.stateChanged a2._state])
    else if a1._state == State.Disconnected
        && (oldState == State.SignedOut || oldState == State.TemporaryCredentialError) then
      (a1, a1.checkConnectivity ++ [Effect.stateChanged a1._state])
    else
      (a1, [Effect.stateChanged a1._state])
  else
    (a, [])

/-- The constant `msIgnoreCredentialError = 35 * 1000` of `slotInvalidCredentials`. -/
def msIgnoreCredentialError : Int := 35 * 1000

/-- `AccountState::slotInvalidCredentials`. -/
def AccountState.slotInvalidCredentials (a : AccountState) (credentials : AbstractCredentials) :
    AccountState × List Effect :=
  if a.isConnected then
    let a1 : AccountState := { a with _firstInvalidCredentialTimer := 0 }
    a1.setState State.TemporaryCredentialError
  else if a._state == State.TemporaryCredentialError
      && decide (a._firstInvalidCredentialTimer < msIgnoreCredentialError) then
    (a, [])
  else
    let fetched : AccountState × List Effect :=
      if credentials.ready then
        (credentials.invalidateAndFetch a, [Effect.credentialsInvalidateAndFetch])
      else
        (credentials.fetch a, [Effect.credentialsFetch])
    if !fetched.1.isSignedOut then
      let r := fetched.1.setState State.ConfigurationError
      ({ r.1 with _waitingForNewCredentials := true }, fetched.2 ++ r.2)
    else
      fetched

/-- `AccountState::slotConnectionValidatorResult`. The call
`account()->handleInvalidCredentials()` leaves the object (`Account` is declared
in `account.h`, which is not among the sources; the signal it raises is wired to
`slotInvalidCredentials` in the constructor): what it has done to the account
state by the time it returns is the parameter `handleInvalidCredentials`. -/
def AccountState.slotConnectionValidatorResult (a : AccountState) (status : Status)
    (errors : List QString) (handleInvalidCredentials : AccountState → AccountState) :
    AccountState × List Effect :=
  if a.isSignedOut then
    (a, [])
  else
    let a1 : AccountState :=
      if a._connectionStatus != status then { a with _connectionStatus := status } else a
    let a2 : AccountState := { a1 with _connectionErrors := errors }
    match status with
    | Status.Connected => a2.setState State.Connected
    | Status.Undefined => a2.setState State.Disconnected
    | Status.NotConfigured => a2.setState State.Disconnected
    | Status.ServerVersionMismatch => a2.setState State.ConfigurationError
    | Status.StatusNotFound => a2.setState State.NetworkError
    | Status.CredentialsWrong => (handleInvalidCredentials a2, [Effect.handleInvalidCredentials])
    | Status.UserCanceledCredentials => a2.setState State.SignedOut
    | Status.ServerMaintenance => a2.setState State.ServerMaintenance
    | Status.Timeout => a2.setState State.NetworkError

/-! ## `HttpCredentialsGui` (creds/httpcredentialsgui.cpp)

`QString::arg` and `tr` belong to Qt, `Account` to `account.h`; none of them is
among the sources. -/

/-- What `requestAppPasswordText` reads from the `Account`: the result of
`serverVersionInt()` and the text of `url().toString()`. -/
structure Account where
  serverVersionInt : Int := 0
  url : QString := []
deriving DecidableEq, Repr

/-- Value of a decimal digit (`QChar::digitValue`, for the ASCII digits). -/
def digitValue (c : Char) : Option Nat :=
  if c.isDigit then some (c.toNat - '0'.toNat) else none

/-- Reads one or two digits at the head of a text: the number read, the digits
read and the text after them. -/
def takeDigits : QString → Option (Nat × QString × QString)
  | [] => none
  | [d1] => (digitValue d1).map (fun a => (a, [d1], []))
  | d1 :: d2 :: rest =>
    match digitValue d1 with
    | none => none
    | some a =>
      match digitValue d2 with
      | some b => some (10 * a + b, [d1, d2], rest)
      | none => some (a, [d1], d2 :: rest)

/-- Reads the rest of a place marker after its `%`: an optional `L`, then one or
two digits. Gives the marker's number, the text read and the text after it. -/
def takeMarker : QString → Option (Nat × QString × QString)
  | 'L' :: rest => (takeDigits rest).map (fun r => (r.1, 'L' :: r.2.1, r.2.2))
  | rest => takeDigits rest

/-- A piece of a format text: one plain character, or a place marker with its
number and the text that follows its `%`. -/
inductive ArgPiece where
  | text (c : Char)
  | marker (n : Nat) (raw : QString)
deriving DecidableEq, Repr

/-- Cuts a format text into plain characters and place markers; the first
argument bounds the number of pieces and is the length of the text. -/
def argPieces : Nat → QString → List ArgPiece
  | 0, _ => []
  | _, [] => []
  | fuel + 1, c :: rest =>
    if c = '%' then
      match takeMarker rest with
      | some (n, raw, after) => ArgPiece.marker n raw :: argPieces fuel after
      | none => ArgPiece.text c :: argPieces fuel rest
    else ArgPiece.text c :: argPieces fuel rest

/-- The lowest marker number among the pieces. -/
def minMarker : List ArgPiece → Option Nat
  | [] => none
  | ArgPiece.text _ :: rest => minMarker rest
  | ArgPiece.marker n _ :: rest =>
    match minMarker rest with
    | none => some n
    | some m => some (min n m)

/-- Text of one piece once the marker numbered `m` is replaced by `a`. -/
def ArgPiece.render (m : Nat) (a : QString) : ArgPiece → QString
  | ArgPiece.text c => [c]
  | ArgPiece.marker n raw => if n = m then a else '%' :: raw

/-- The function `QString::arg(const QString &a)` as Qt documents it: a copy of
the text in which every occurrence of the lowest numbered place marker (`%1`
to `%99`, with an optional `L`) is replaced by `a`; a text without a place
marker is returned as it is. -/
def arg (format a : QString) : QString :=
  match minMarker (argPieces format.length format) with
  | none => format
  | some m => (argPieces format.length format).flatMap (ArgPiece.render m a)

/-- The source text handed to `tr` in `requestAppPasswordText`. -/
def requestAppPasswordSource : QString :=
  "<a href=\"%1\">Click here</a> to request an app password from the web interface.".toList

/-- The text appended to the account URL in `requestAppPasswordText`. -/
def requestAppPasswordPath : QString :=
  "/index.php/settings/personal?section=apppasswords".toList

/-- `HttpCredentialsGui::requestAppPasswordText`. The translation `tr` is a
parameter: it is Qt's lookup in the installed translations, the identity when
the message is not translated. `QString()` is the empty text. -/
def requestAppPasswordText (tr : QString → QString) (account : Account) : QString :=
  if account.serverVersionInt < 0x090100 then
    []
  else
    arg (tr requestAppPasswordSource) (account.url ++ requestAppPasswordPath)

/-! ## Theorems -/

/-! ### Paths and their parent directories -/

/-- The executable ancestor test agrees with the decomposition of the path. -/
theorem isProperAncestor_iff (q p : QString) :
    isProperAncestor q p = true ↔ q ≠ [] ∧ ∃ rest, p = q ++ '/' :: rest := by
  unfold isProperAncestor
  rw [Bool.and_eq_true, List.isPrefixOf_iff_prefix]
  have hq : (!q.isEmpty) = true ↔ q ≠ [] := by
    cases q <;> simp
  rw [hq]
  constructor
  · rintro ⟨hne, t, ht⟩
    exact ⟨hne, t, by rw [← ht]; simp⟩
  · rintro ⟨hne, t, ht⟩
    exact ⟨hne, t, by rw [ht]; simp⟩

/-- The cuts listed by `slashSplits` are exactly the cuts in front of a slash. -/
theorem mem_slashSplits (x p s : QString) :
    (p, s) ∈ slashSplits x ↔ x = p ++ s ∧ ∃ rest, s = '/' :: rest := by
  induction x generalizing p with
  | nil =>
    constructor
    · intro h
      simp [slashSplits] at h
    · rintro ⟨h, rest, hs⟩
      subst hs
      cases p <;> simp at h
  | cons c tl ih =>
    have hmap : (p, s) ∈ (slashSplits tl).map (fun ps => (c :: ps.1, ps.2)) ↔
        ∃ p1, p = c :: p1 ∧ tl = p1 ++ s ∧ ∃ rest, s = '/' :: rest := by
      constructor
      · intro h
        rcases List.mem_map.mp h with ⟨⟨p1, s1⟩, hmem, heq⟩
        simp only [Prod.mk.injEq] at heq
        obtain ⟨hp, hs⟩ := heq
        subst hs
        exact ⟨p1, hp.symm, (ih p1).mp hmem⟩
      · rintro ⟨p1, hp, hx⟩
        exact List.mem_map.mpr ⟨(p1, s), (ih p1).mpr hx, by simp [hp]⟩
    constructor
    · intro h
      have h2 : (p, s) ∈ (slashSplits tl).map (fun ps => (c :: ps.1, ps.2)) ∨
          (c = '/' ∧ (p, s) = ([], c :: tl)) := by
        unfold slashSplits at h
        by_cases hc : c = '/'
        · simp only [hc, if_true] at h
          rcases List.mem_append.mp h with h1 | h1
          · left; rw [hc]; exact h1
          · right
            refine ⟨hc, ?_⟩
            rw [hc]
            simpa using h1
        · simp only [hc, if_false] at h
          left; exact h
      rcases h2 with h1 | ⟨hc, heq⟩
      · obtain ⟨p1, hp, hx, hrest⟩ := hmap.mp h1
        exact ⟨by rw [hp, hx]; rfl, hrest⟩
      · simp only [Prod.mk.injEq] at heq
        obtain ⟨hp, hs⟩ := heq
        exact ⟨by rw [hp, hs]; rfl, tl, by rw [hs, hc]⟩
    · rintro ⟨hx, rest, hs⟩
      cases p with
      | nil =>
        simp only [List.nil_append] at hx
        have hc : c = '/' := by
          rw [hs] at hx
          exact (List.cons.inj hx).1
        unfold slashSplits
        simp only [hc, if_true]
        apply List.mem_append.mpr
        right
        rw [← hx, hc]
        simp
      | cons c1 p1 =>
        have hc : c = c1 := (List.cons.inj hx).1
        have ht : tl = p1 ++ s := (List.cons.inj hx).2
        have hin : (c1 :: p1, s) ∈ (slashSplits tl).map (fun ps => (c :: ps.1, ps.2)) := by
          rw [← hc]
          exact List.mem_map.mpr ⟨(p1, s), (ih p1).mpr ⟨ht, rest, hs⟩, rfl⟩
        unfold slashSplits
        by_cases hsl : c = '/'
        · simp only [hsl, if_true]
          rw [hsl] at hin
          exact List.mem_append.mpr (Or.inl hin)
        · simp only [hsl, if_false]
          exact hin

/-- The cuts listed by `parentSplits` are exactly the cuts in front of a slash
that leave a non-empty parent. -/
theorem mem_parentSplits (x p s : QString) :
    (p, s) ∈ parentSplits x ↔ x = p ++ s ∧ p ≠ [] ∧ ∃ rest, s = '/' :: rest := by
  cases x with
  | nil =>
    constructor
    · intro h
      simp [parentSplits] at h
    · rintro ⟨h, _, rest, hs⟩
      subst hs
      cases p <;> simp at h
  | cons c tl =>
    unfold parentSplits
    constructor
    · intro h
      rcases List.mem_map.mp h with ⟨⟨p1, s1⟩, hmem, heq⟩
      simp only [Prod.mk.injEq] at heq
      obtain ⟨hp, hs⟩ := heq
      subst hs
      obtain ⟨ht, hrest⟩ := (mem_slashSplits tl p1 s1).mp hmem
      refine ⟨by rw [← hp, ht]; rfl, by rw [← hp]; simp, hrest⟩
    · rintro ⟨hx, hne, hrest⟩
      cases p with
      | nil => exact absurd rfl hne
      | cons c1 p1 =>
        have hc : c = c1 := (List.cons.inj hx).1
        have ht : tl = p1 ++ s := (List.cons.inj hx).2
        rw [← hc]
        exact List.mem_map.mpr ⟨(p1, s), (mem_slashSplits tl p1 s).mpr ⟨ht, hrest⟩, rfl⟩

/-- The parents listed by `parentSplits` are proper ancestors. -/
theorem mem_parentSplits_ancestor (x p s : QString) (h : (p, s) ∈ parentSplits x) :
    isProperAncestor p x = true := by
  obtain ⟨hx, hne, rest, hs⟩ := (mem_parentSplits x p s).mp h
  exact (isProperAncestor_iff p x).mpr ⟨hne, rest, by rw [hx, hs]⟩

/-- A search in which every hit gives the same value, and which has a hit,
returns that value. -/
theorem findSome?_eq_of_unique {α β : Type} (f : α → Option β) (y : β) (l : List α)
    (hall : ∀ x ∈ l, f x = none ∨ f x = some y) (hex : ∃ x ∈ l, f x = some y) :
    l.findSome? f = some y := by
  induction l with
  | nil =>
    obtain ⟨x, hx, _⟩ := hex
    simp at hx
  | cons a tl ih =>
    rcases hall a (List.mem_cons_self a tl) with hnone | hsome
    · rw [List.findSome?_cons, hnone]
      apply ih
      · intro x hx
        exact hall x (List.mem_cons_of_mem a hx)
      · obtain ⟨x, hx, hfx⟩ := hex
        rcases List.mem_cons.mp hx with rfl | hx1
        · rw [hnone] at hfx
          cases hfx
        · exact ⟨x, hx1, hfx⟩
    · rw [List.findSome?_cons, hsome]

/-- In a table with a single binding only the bound key is found. -/
theorem lookup_single_isSome {V : Type} (k q : QString) (v : V)
    (h : (([(k, v)] : QMap V).lookup q).isSome = true) : q = k := by
  by_cases hq : q = k
  · exact hq
  · have hb : (q == k) = false := by simpa using hq
    simp [List.lookup, hb] at h

/-! ### The order of paths and the sorted selective-sync lists -/

/-- A text does not sort before one of its beginnings. -/
theorem qstringLt_append_left (e r : QString) : qstringLt (e ++ r) e = false := by
  induction e with
  | nil => cases r <;> rfl
  | cons a tl ih => simp [qstringLt, ih]

/-- A proper beginning of a text sorts before the text. -/
theorem qstringLt_append_right (e r : QString) (hr : r ≠ []) : qstringLt e (e ++ r) = true := by
  induction e with
  | nil =>
    cases r with
    | nil => exact absurd rfl hr
    | cons c tl => rfl
  | cons a tl ih => simp [qstringLt, ih]

/-- The order "does not sort after" is transitive. -/
theorem qstringLt_trans_false (a b c : QString)
    (hab : qstringLt b a = false) (hbc : qstringLt c b = false) : qstringLt c a = false := by
  induction a generalizing b c with
  | nil => cases c <;> rfl
  | cons x xs ih =>
    cases b with
    | nil => simp [qstringLt] at hab
    | cons y ys =>
      cases c with
      | nil => simp [qstringLt] at hbc
      | cons z zs =>
        simp only [qstringLt] at hab hbc ⊢
        by_cases h1 : y.toNat < x.toNat
        · simp [h1] at hab
        · by_cases h2 : z.toNat < y.toNat
          · simp [h2] at hbc
          · by_cases h3 : x.toNat < y.toNat
            · have h4 : ¬ z.toNat < x.toNat := by omega
              have h5 : x.toNat < z.toNat ∨ ¬ x.toNat < z.toNat := Classical.em _
              rcases h5 with h5 | h5
              · simp [h4, h5]
              · exfalso; omega
            · by_cases h6 : y.toNat < z.toNat
              · have h4 : ¬ z.toNat < x.toNat := by omega
                have h5 : x.toNat < z.toNat := by omega
                simp [h4, h5]
              · have hxz1 : ¬ z.toNat < x.toNat := by omega
                have hxz2 : ¬ x.toNat < z.toNat := by omega
                simp only [h1, h3, if_false] at hab
                simp only [h2, h6, if_false] at hbc
                simp only [hxz1, hxz2, if_false]
                exact ih ys zs hab hbc

/-- In a sorted list no entry sorts before the first one. -/
theorem isSorted_head_le (a : QString) (l : List QString) (h : isSorted (a :: l) = true) :
    ∀ x ∈ l, qstringLt x a = false := by
  induction l generalizing a with
  | nil => intro x hx; simp at hx
  | cons b rest ih =>
    simp only [isSorted, Bool.and_eq_true, Bool.not_eq_true'] at h
    intro x hx
    rcases List.mem_cons.mp hx with rfl | hx1
    · exact h.1
    · exact qstringLt_trans_false a b x h.1 (ih b h.2 x hx1)

/-- The rest of a sorted list is sorted. -/
theorem isSorted_tail (a : QString) (l : List QString) (h : isSorted (a :: l) = true) :
    isSorted l = true := by
  cases l with
  | nil => rfl
  | cons b rest =>
    simp only [isSorted, Bool.and_eq_true] at h
    exact h.2

/-- A path begins its directory form. -/
theorem withSlash_eq (p : QString) : withSlash p = p ∨ withSlash p = p ++ ['/'] := by
  unfold withSlash
  split
  · exact Or.inl rfl
  · exact Or.inr rfl

/-- The directory form ends with a slash. -/
theorem withSlash_getLast (p : QString) : (withSlash p).getLast? = some '/' := by
  unfold withSlash
  split
  · assumption
  · simp

/-- The relation `isAtOrAbove`, as a decomposition of the directory form. -/
theorem isAtOrAbove_iff (e p : QString) :
    isAtOrAbove e p = true ↔ ∃ rest, withSlash p = withSlash e ++ rest := by
  unfold isAtOrAbove
  rw [List.isPrefixOf_iff_prefix]
  constructor
  · rintro ⟨t, ht⟩
    exact ⟨t, ht.symm⟩
  · rintro ⟨t, ht⟩
    exact ⟨t, ht.symm⟩

/-- Every path is at or above itself. -/
theorem isAtOrAbove_refl (p : QString) : isAtOrAbove p p = true :=
  (isAtOrAbove_iff p p).mpr ⟨[], by simp⟩

/-- The relation `isAtOrAbove` is transitive. -/
theorem isAtOrAbove_trans (a b c : QString) (hab : isAtOrAbove a b = true)
    (hbc : isAtOrAbove b c = true) : isAtOrAbove a c = true := by
  obtain ⟨r1, h1⟩ := (isAtOrAbove_iff a b).mp hab
  obtain ⟨r2, h2⟩ := (isAtOrAbove_iff b c).mp hbc
  exact (isAtOrAbove_iff a c).mpr ⟨r1 ++ r2, by rw [h2, h1, List.append_assoc]⟩

/-- An entry at or above a path does not sort after the directory form of the
path. -/
theorem isAtOrAbove_not_after (e p : QString) (h : isAtOrAbove e p = true) :
    qstringLt (withSlash p) e = false := by
  obtain ⟨r, hr⟩ := (isAtOrAbove_iff e p).mp h
  rcases withSlash_eq e with he | he
  · rw [hr, he]
    exact qstringLt_append_left e r
  · rw [hr, he, List.append_assoc]
    exact qstringLt_append_left e _

/-- Of two entries at or above the same path, the one that does not sort after
the other is at or above it. -/
theorem isAtOrAbove_of_sorted (b c p : QString) (hb : isAtOrAbove b p = true)
    (hc : isAtOrAbove c p = true) (hle : qstringLt c b = false) : isAtOrAbove b c = true := by
  obtain ⟨rb, hrb⟩ := (isAtOrAbove_iff b p).mp hb
  obtain ⟨rc, hrc⟩ := (isAtOrAbove_iff c p).mp hc
  have heq : withSlash b ++ rb = withSlash c ++ rc := by rw [← hrb, ← hrc]
  rcases List.append_eq_append_iff.mp heq with ⟨t, ht, _⟩ | ⟨t, ht, _⟩
  · exact (isAtOrAbove_iff b c).mpr ⟨t, ht⟩
  · -- the directory form of `c` begins that of `b`
    by_cases htnil : t = []
    · exact (isAtOrAbove_iff b c).mpr ⟨[], by rw [ht, htnil]; simp⟩
    · exfalso
      -- `c` is a proper beginning of `b`, so it sorts before `b`
      have hcb : ∃ s, s ≠ [] ∧ b = c ++ s := by
        rcases withSlash_eq b with hbb | hbb
        · rcases withSlash_eq c with hcc | hcc
          · exact ⟨t, htnil, by rw [← hbb, ht, hcc]⟩
          · exact ⟨['/'] ++ t, by simp, by rw [← hbb, ht, hcc, List.append_assoc]⟩
        · -- `b` has no slash at its end, the directory form of `c` has one
          have hlast := withSlash_getLast c
          rw [hbb] at ht
          -- `t` ends with the slash added to `b`
          have ht2 : ∃ t1, t = t1 ++ ['/'] := by
            rcases List.eq_nil_or_concat t with h | ⟨t1, x, h⟩
            · exact absurd h htnil
            · refine ⟨t1, ?_⟩
              have hx : b ++ ['/'] = (withSlash c ++ t1) ++ [x] := by
                rw [ht, h, List.concat_eq_append, List.append_assoc]
              have := List.append_inj_right' hx rfl
              rw [h, List.concat_eq_append, ← this]
          obtain ⟨t1, ht1⟩ := ht2
          have hb1 : b = withSlash c ++ t1 := by
            rw [ht1, ← List.append_assoc] at ht
            exact List.append_cancel_right ht
          rcases withSlash_eq c with hcc | hcc
          · by_cases ht1nil : t1 = []
            · exfalso
              -- then `b` is the directory form of `c` and ends with a slash
              rw [ht1nil, List.append_nil] at hb1
              have hbl : b.getLast? = some '/' := by rw [hb1]; exact hlast
              have : withSlash b = b := by simp [withSlash, hbl]
              rw [this] at hbb
              have := congrArg List.length hbb
              simp at this
            · exact ⟨t1, ht1nil, by rw [hb1, hcc]⟩
          · exact ⟨['/'] ++ t1, by simp, by rw [hb1, hcc, List.append_assoc]⟩
      obtain ⟨s, hs, hbs⟩ := hcb
      rw [hbs, qstringLt_append_right c s hs] at hle
      cases hle

/-- What the lookup in a sorted list returns. The entry handed in as `best`, if
any, has to be at or above the path and must not sort after any entry of the
list. Then a result is at or above the path, comes from the list or is `best`,
and every entry of the list that is at or above the path, as well as `best`, is
at or above the result; and there is no result only if there was no `best` and
no entry of the list is at or above the path. -/
theorem nearestEntry_spec (p : QString) (l : List QString) (best : Option QString)
    (hs : isSorted l = true)
    (hbest : ∀ b0, best = some b0 →
      isAtOrAbove b0 p = true ∧ ∀ x ∈ l, qstringLt x b0 = false) :
    (∀ r, nearestEntry p l best = some r →
      (r ∈ l ∨ best = some r) ∧ isAtOrAbove r p = true ∧
      (∀ c ∈ l, isAtOrAbove c p = true → isAtOrAbove c r = true) ∧
      (∀ b0, best = some b0 → isAtOrAbove b0 r = true)) ∧
    (nearestEntry p l best = none →
      best = none ∧ ∀ c ∈ l, isAtOrAbove c p = false) := by
  induction l generalizing best with
  | nil =>
    simp only [nearestEntry]
    constructor
    · intro r hr
      refine ⟨Or.inr hr, (hbest r hr).1, ?_, ?_⟩
      · intro c hc
        simp at hc
      · intro b0 hb0
        rw [hr] at hb0
        cases hb0
        exact isAtOrAbove_refl r
    · intro hnone
      exact ⟨hnone, by intro c hc; simp at hc⟩
  | cons e rest ih =>
    have hrest : isSorted rest = true := isSorted_tail e rest hs
    have hhead : ∀ x ∈ rest, qstringLt x e = false := isSorted_head_le e rest hs
    by_cases hstop : qstringLt (withSlash p) e = true
    · -- reading stops: no entry from here on is at or above the path
      have hnone : ∀ c ∈ e :: rest, isAtOrAbove c p = false := by
        intro c hc
        cases hcov : isAtOrAbove c p with
        | false => rfl
        | true =>
          exfalso
          have hck : qstringLt (withSlash p) c = false := isAtOrAbove_not_after c p hcov
          rcases List.mem_cons.mp hc with rfl | hc1
          · rw [hck] at hstop
            cases hstop
          · have := qstringLt_trans_false e c (withSlash p) (hhead c hc1) hck
            rw [this] at hstop
            cases hstop
      have hres : nearestEntry p (e :: rest) best = best := by
        simp [nearestEntry, hstop]
      rw [hres]
      constructor
      · intro r hr
        refine ⟨Or.inr hr, (hbest r hr).1, ?_, ?_⟩
        · intro c hc hcov
          rw [hnone c hc] at hcov
          cases hcov
        · intro b0 hb0
          rw [hr] at hb0
          cases hb0
          exact isAtOrAbove_refl r
      · intro hb
        exact ⟨hb, hnone⟩
    · have hstop' : qstringLt (withSlash p) e = false := by
        cases h : qstringLt (withSlash p) e with
        | false => rfl
        | true => exact absurd h hstop
      by_cases hcov : isAtOrAbove e p = true
      · -- the entry becomes the best one so far
        have hres : nearestEntry p (e :: rest) best = nearestEntry p rest (some e) := by
          simp [nearestEntry, hstop', hcov]
        rw [hres]
        obtain ⟨ih1, ih2⟩ := ih (some e) hrest (by
          intro b0 hb0
          cases hb0
          exact ⟨hcov, hhead⟩)
        constructor
        · intro r hr
          obtain ⟨hmem, hrp, hall, hbe⟩ := ih1 r hr
          have her : isAtOrAbove e r = true := hbe e rfl
          refine ⟨Or.inl ?_, hrp, ?_, ?_⟩
          · rcases hmem with hm | hm
            · exact List.mem_cons_of_mem e hm
            · have hre : e = r := Option.some.inj hm
              rw [← hre]
              exact List.mem_cons_self e rest
          · intro c hc hcp
            rcases List.mem_cons.mp hc with rfl | hc1
            · exact her
            · exact hall c hc1 hcp
          · intro b0 hb0
            obtain ⟨hb0p, hb0le⟩ := hbest b0 hb0
            have hb0e : isAtOrAbove b0 e = true :=
              isAtOrAbove_of_sorted b0 e p hb0p hcov (hb0le e (List.mem_cons_self e rest))
            exact isAtOrAbove_trans b0 e r hb0e her
        · intro hnone
          have := (ih2 hnone).1
          cases this
      · -- the entry is passed over
        have hcov' : isAtOrAbove e p = false := by
          cases h : isAtOrAbove e p with
          | false => rfl
          | true => exact absurd h hcov
        have hres : nearestEntry p (e :: rest) best = nearestEntry p rest best := by
          simp [nearestEntry, hstop', hcov']
        rw [hres]
        obtain ⟨ih1, ih2⟩ := ih best hrest (by
          intro b0 hb0
          obtain ⟨h1, h2⟩ := hbest b0 hb0
          exact ⟨h1, fun x hx => h2 x (List.mem_cons_of_mem e hx)⟩)
        constructor
        · intro r hr
          obtain ⟨hmem, hrp, hall, hbe⟩ := ih1 r hr
          refine ⟨?_, hrp, ?_, hbe⟩
          · rcases hmem with hm | hm
            · exact Or.inl (List.mem_cons_of_mem e hm)
            · exact Or.inr hm
          · intro c hc hcp
            rcases List.mem_cons.mp hc with rfl | hc1
            · rw [hcov'] at hcp
              cases hcp
            · exact hall c hc1 hcp
        · intro hnone
          obtain ⟨hb, hall⟩ := ih2 hnone
          refine ⟨hb, ?_⟩
          intro c hc
          rcases List.mem_cons.mp hc with rfl | hc1
          · exact hcov'
          · exact hall c hc1

/-! ### Pending-deletion tables -/

/-- After `eraseKey` the key is unbound. -/
theorem lookup_eraseKey_self {V : Type} (m : QMap V) (key : QString) :
    (eraseKey m key).lookup key = none := by
  induction m with
  | nil => rfl
  | cons kv tl ih =>
    obtain ⟨k, v⟩ := kv
    unfold eraseKey at ih ⊢
    by_cases h : k = key
    · have hb : (k != key) = false := by simp [h]
      simp only [List.filter_cons, hb]
      exact ih
    · have hb : (k != key) = true := by simpa using h
      have hk : (key == k) = false := by
        simpa using fun e : key = k => h e.symm
      simp only [List.filter_cons, hb, if_true, List.lookup, hk]
      exact ih

/-- The function `eraseKey` leaves every other key as it was. -/
theorem lookup_eraseKey_ne {V : Type} (m : QMap V) (key q : QString) (hq : q ≠ key) :
    (eraseKey m key).lookup q = m.lookup q := by
  induction m with
  | nil => rfl
  | cons kv tl ih =>
    obtain ⟨k, v⟩ := kv
    unfold eraseKey at ih ⊢
    by_cases h : k = key
    · have hb : (k != key) = false := by simp [h]
      have hk : (q == k) = false := by
        simpa using fun e : q = k => hq (e.trans h)
      simp only [List.filter_cons, hb, List.lookup, hk]
      exact ih
    · have hb : (k != key) = true := by simpa using h
      simp only [List.filter_cons, hb, if_true, List.lookup]
      cases q == k
      · exact ih
      · rfl

/-! ### The concurrency limiter -/

/-- Plain characters carry no place marker. -/
theorem minMarker_map_text (l : QString) (rest : List ArgPiece) :
    minMarker (l.map ArgPiece.text ++ rest) = minMarker rest := by
  induction l with
  | nil => rfl
  | cons c tl ih => simpa [minMarker] using ih

/-- Plain characters are rendered as themselves. -/
theorem flatMap_render_map_text (m : Nat) (a l : QString) (rest : List ArgPiece) :
    (l.map ArgPiece.text ++ rest).flatMap (ArgPiece.render m a)
      = l ++ rest.flatMap (ArgPiece.render m a) := by
  induction l with
  | nil => rfl
  | cons c tl ih =>
    simp only [List.map_cons, List.cons_append, List.flatMap_cons, ArgPiece.render]
    rw [ih]
    rfl

/-- A rendered piece is not empty when the replacement is not. -/
theorem render_ne_nil (m : Nat) (a : QString) (ha : a ≠ []) (p : ArgPiece) :
    p.render m a ≠ [] := by
  cases p with
  | text c => simp [ArgPiece.render]
  | marker n raw =>
    by_cases h : n = m
    · simpa [ArgPiece.render, h] using ha
    · simp [ArgPiece.render, h]

/-- A text that is not empty has a first piece. -/
theorem argPieces_ne_nil (c : Char) (rest : QString) :
    argPieces (c :: rest).length (c :: rest) ≠ [] := by
  simp only [List.length_cons]
  unfold argPieces
  split
  · split <;> simp
  · simp

/-- The function `arg` keeps a text that is not empty from becoming empty, as
long as the replacement is not empty. -/
theorem arg_ne_nil (format a : QString) (hf : format ≠ []) (ha : a ≠ []) :
    arg format a ≠ [] := by
  unfold arg
  split
  · exact hf
  · cases format with
    | nil => exact absurd rfl hf
    | cons c rest =>
      have hp := argPieces_ne_nil c rest
      cases hpieces : argPieces (c :: rest).length (c :: rest) with
      | nil => exact absurd hpieces hp
      | cons p ps =>
        simp only [List.flatMap_cons]
        intro h
        exact render_ne_nil _ a ha p (List.append_eq_nil.mp h).1

set_option maxRecDepth 20000 in
/-- The pieces of the untranslated message: the text up to the link target, the
place marker `%1`, the text after it. -/
theorem argPieces_requestAppPasswordSource :
    argPieces requestAppPasswordSource.length requestAppPasswordSource
      = "<a href=\"".toList.map ArgPiece.text ++
        (ArgPiece.marker 1 ['1'] ::
          "\">Click here</a> to request an app password from the web interface.".toList.map
            ArgPiece.text) := by
  decide

/-- In the untranslated message the replacement becomes the link target. -/
theorem arg_requestAppPasswordSource (a : QString) :
    arg requestAppPasswordSource a
      = "<a href=\"".toList ++ a ++
        "\">Click here</a> to request an app password from the web interface.".toList := by
  unfold arg
  rw [argPieces_requestAppPasswordSource, minMarker_map_text]
  have hmin : minMarker (ArgPiece.marker 1 ['1'] ::
      "\">Click here</a> to request an app password from the web interface.".toList.map
        ArgPiece.text) = some 1 := by
    have := minMarker_map_text
      "\">Click here</a> to request an app password from the web interface.".toList []
    simp only [List.append_nil] at this
    simp [minMarker, this]
  rw [hmin]
  simp only
  rw [flatMap_render_map_text]
  have htail := flatMap_render_map_text 1 a
    "\">Click here</a> to request an app password from the web interface.".toList []
  simp only [List.append_nil, List.flatMap_nil] at htail
  rw [List.flatMap_cons, htail]
  simp [ArgPiece.render]

/-! ### Account state -/

/-- After `setState(state)` the account is in that state. -/
theorem setState_state (b : AccountState) (s : State) : (b.setState s).1._state = s := by
  unfold AccountState.setState
  by_cases h : b._state = s
  · have hb : (b._state != s) = false := by simp [h]
    simp only [hb, Bool.false_eq_true, if_false]
    exact h
  · have hb : (b._state != s) = true := by simpa using h
    simp only [hb, if_true]
    split_ifs <;> rfl

/-- A call of `setState` with a state other than `SignedOut` leaves the
connection status and the connection errors as they are. -/
theorem setState_connection (b : AccountState) (s : State) (hs : s ≠ State.SignedOut) :
    (b.setState s).1._connectionStatus = b._connectionStatus ∧
    (b.setState s).1._connectionErrors = b._connectionErrors := by
  unfold AccountState.setState
  by_cases h : b._state = s
  · have hb : (b._state != s) = false := by simp [h]
    simp [hb]
  · have hb : (b._state != s) = true := by simpa using h
    have hne : (s == State.SignedOut) = false := by simpa using hs
    simp only [hb, if_true, hne, Bool.false_eq_true, if_false]
    split_ifs <;> exact ⟨rfl, rfl⟩

/-- Storing the status only when it differs stores the status. -/
theorem connectionStatus_update (a : AccountState) (status : Status) :
    (if a._connectionStatus != status then { a with _connectionStatus := status } else a)
      = { a with _connectionStatus := status } := by
  by_cases h : a._connectionStatus = status
  · have hb : (a._connectionStatus != status) = false := by simp [h]
    simp only [hb, Bool.false_eq_true, if_false]
    rw [← h]
  · have hb : (a._connectionStatus != status) = true := by simpa using h
    simp only [hb, if_true]

/-! ### Claims -/

/-- C1. Ancestor-rename resolution: when `a` is a key of the rename table with
target `b`, the suffix `s` starts with a slash (so is not empty), and `a` is the
only proper ancestor of the path `a ++ s` that is a key of the table, then the
path resolves to `b ++ s`. -/
theorem adjustRenamedPath_ancestor (m : QMap QString) (a b s : QString)
    (hkey : m.lookup a = some b) (hs : s.head? = some '/')
    (hanc : isProperAncestor a (a ++ s) = true)
    (honly : ∀ q, isProperAncestor q (a ++ s) = true → (m.lookup q).isSome = true → q = a) :
    adjustRenamedPath m (a ++ s) = b ++ s := by
  obtain ⟨rest, hrest⟩ : ∃ rest, s = '/' :: rest := by
    cases s with
    | nil => simp at hs
    | cons c tl =>
      simp only [List.head?_cons, Option.some.injEq] at hs
      exact ⟨tl, by rw [hs]⟩
  have hne : a ≠ [] := ((isProperAncestor_iff a (a ++ s)).mp hanc).1
  have hfind : (parentSplits (a ++ s)).findSome?
      (fun ps => (m.lookup ps.1).map (fun target => target ++ ps.2)) = some (b ++ s) := by
    apply findSome?_eq_of_unique
    · rintro ⟨p1, s1⟩ hmem
      cases hl : m.lookup p1 with
      | none => left; simp [hl]
      | some v =>
        right
        have hanc1 := mem_parentSplits_ancestor (a ++ s) p1 s1 hmem
        have hp : p1 = a := honly p1 hanc1 (by rw [hl]; rfl)
        subst hp
        have hv : v = b := by
          rw [hkey] at hl
          exact (Option.some.inj hl).symm
        have hs1 : s1 = s := by
          have := ((mem_parentSplits (p1 ++ s) p1 s1).mp hmem).1
          exact (List.append_cancel_left this).symm
        simp [hl, hv, hs1]
    · exact ⟨(a, s), (mem_parentSplits (a ++ s) a s).mpr ⟨rfl, hne, rest, hrest⟩,
        by simp [hkey]⟩
  unfold adjustRenamedPath
  rw [hfind]

/-- Witness of C1: with `A/B -> C/D`, `A/B/file` resolves to `C/D/file`; with
`/X -> /Z`, `/X/Y/file` resolves to `/Z/Y/file`. -/
theorem adjustRenamedPath_ancestor_witness :
    adjustRenamedPath [("A/B".toList, "C/D".toList)] ("A/B".toList ++ "/file".toList)
      = "C/D".toList ++ "/file".toList ∧
    adjustRenamedPath [("/X".toList, "/Z".toList)] ("/X".toList ++ "/Y/file".toList)
      = "/Z".toList ++ "/Y/file".toList :=
  ⟨adjustRenamedPath_ancestor [("A/B".toList, "C/D".toList)] "A/B".toList "C/D".toList
      "/file".toList (by decide) (by decide) (by decide)
      (fun q _ h => lookup_single_isSome "A/B".toList q "C/D".toList h),
   adjustRenamedPath_ancestor [("/X".toList, "/Z".toList)] "/X".toList "/Z".toList
      "/Y/file".toList (by decide) (by decide) (by decide)
      (fun q _ h => lookup_single_isSome "/X".toList q "/Z".toList h)⟩

/-- C2. Exact-path hits are not substituted: a path none of whose proper
ancestors is a key of the rename table resolves to itself, whether or not the
path itself is a key. -/
theorem adjustRenamedPath_exact_hit (m : QMap QString) (p : QString)
    (hnone : ∀ q, isProperAncestor q p = true → m.lookup q = none) :
    adjustRenamedPath m p = p := by
  have hfind : (parentSplits p).findSome?
      (fun ps => (m.lookup ps.1).map (fun target => target ++ ps.2)) = none := by
    rw [List.findSome?_eq_none_iff]
    rintro ⟨p1, s1⟩ hmem
    have := hnone p1 (mem_parentSplits_ancestor p p1 s1 hmem)
    simp [this]
  unfold adjustRenamedPath
  rw [hfind]

/-- Witness of C2: with `A/B -> C/D` in the table, `A/B` resolves to `A/B`. -/
theorem adjustRenamedPath_exact_hit_witness :
    ([("A/B".toList, "C/D".toList)] : QMap QString).lookup "A/B".toList = some "C/D".toList ∧
    adjustRenamedPath [("A/B".toList, "C/D".toList)] "A/B".toList = "A/B".toList :=
  ⟨by decide,
   adjustRenamedPath_exact_hit [("A/B".toList, "C/D".toList)] "A/B".toList (by
      intro q hq
      cases hl : ([("A/B".toList, "C/D".toList)] : QMap QString).lookup q with
      | none => rfl
      | some v =>
        have hk : q = "A/B".toList :=
          lookup_single_isSome "A/B".toList q "C/D".toList (by rw [hl]; rfl)
        rw [hk] at hq
        exact absurd hq (by decide))⟩

/-- C3. Selective-sync invariant: for every sorted blacklist, every whitelist
and every path `p`, the selective-sync check reports `p` as excluded exactly
when some blacklist entry is `p` or an ancestor of `p` and is not overridden,
that is, no whitelist entry lies at or below that blacklist entry and is `p` or
an ancestor of `p`. -/
theorem isInSelectiveSyncBlackList_iff (d : DiscoveryPhase) (p : QString)
    (hsorted : isSorted d._selectiveSyncBlackList = true) :
    d.isInSelectiveSyncBlackList p = true ↔
      ∃ b ∈ d._selectiveSyncBlackList, isAtOrAbove b p = true ∧
        ¬ ∃ w ∈ d._selectiveSyncWhiteList,
            isAtOrAbove b w = true ∧ isAtOrAbove w p = true := by
  obtain ⟨hsome, hnone⟩ := nearestEntry_spec p d._selectiveSyncBlackList none hsorted
    (by intro b0 hb0; cases hb0)
  unfold DiscoveryPhase.isInSelectiveSyncBlackList
  cases hlook : nearestEntry p d._selectiveSyncBlackList none with
  | none =>
    simp only [Bool.false_eq_true, false_iff]
    rintro ⟨b, hb, hbp, _⟩
    rw [(hnone hlook).2 b hb] at hbp
    cases hbp
  | some r =>
    obtain ⟨hmem, hrp, hall, _⟩ := hsome r hlook
    have hr : r ∈ d._selectiveSyncBlackList := by
      rcases hmem with h | h
      · exact h
      · cases h
    simp only [Bool.not_eq_true', List.any_eq_false, Bool.and_eq_true, not_and]
    constructor
    · intro hno
      refine ⟨r, hr, hrp, ?_⟩
      rintro ⟨w, hw, hrw, hwp⟩
      exact hno w hw hrw (by simp [hwp])
    · rintro ⟨b, hb, hbp, hno⟩ w hw hrw
      have hbr : isAtOrAbove b r = true := hall b hb hbp
      cases hwp : isAtOrAbove w p with
      | false => simp
      | true => exact absurd ⟨w, hw, isAtOrAbove_trans b r w hbr hrw, hwp⟩ hno

/-- Witness of C3: with the sorted blacklist `A`, `A/B/c` and the whitelist
`A/B`, the path `A/B/c/d` is excluded (the entry `A/B/c` is not overridden) and
the path `A/B/x` is not (the entry `A` is overridden by `A/B`); with the root
`/` blacklisted, `/X/Y` is excluded. -/
theorem isInSelectiveSyncBlackList_iff_witness :
    (({ _selectiveSyncBlackList := ["A".toList, "A/B/c".toList],
        _selectiveSyncWhiteList := ["A/B".toList] } : DiscoveryPhase).isInSelectiveSyncBlackList
        "A/B/c/d".toList = true ↔
      ∃ b ∈ ["A".toList, "A/B/c".toList], isAtOrAbove b "A/B/c/d".toList = true ∧
        ¬ ∃ w ∈ ["A/B".toList],
            isAtOrAbove b w = true ∧ isAtOrAbove w "A/B/c/d".toList = true) ∧
    ({ _selectiveSyncBlackList := ["A".toList, "A/B/c".toList],
        _selectiveSyncWhiteList := ["A/B".toList] } : DiscoveryPhase).isInSelectiveSyncBlackList
        "A/B/c/d".toList = true ∧
    ({ _selectiveSyncBlackList := ["A".toList, "A/B/c".toList],
        _selectiveSyncWhiteList := ["A/B".toList] } : DiscoveryPhase).isInSelectiveSyncBlackList
        "A/B/x".toList = false ∧
    ({ _selectiveSyncBlackList := ["/".toList] } : DiscoveryPhase).isInSelectiveSyncBlackList
        "/X/Y".toList = true :=
  ⟨isInSelectiveSyncBlackList_iff
      { _selectiveSyncBlackList := ["A".toList, "A/B/c".toList],
        _selectiveSyncWhiteList := ["A/B".toList] } "A/B/c/d".toList (by decide),
   by decide, by decide, by decide⟩

/-- C4. The function `findAndCancelDeletedJob`: when no deletion is pending for
the path, the result is `(false, empty)`, nothing is cancelled and the state,
hence both pending-deletion tables, is unchanged. When a deleted item is pending
for it, the result is `(true, that item's etag)`; when only a queued directory
deletion is pending, the result is `(true, that job's etag)`. Whenever a
deletion is pending, what is cancelled is exactly what was bound to the path
(the deleted item, the queued directory job, or both, and nothing bound to
another path); afterwards the path is in neither pending-deletion table, every
other path is bound as before, and nothing else in the state has changed. -/
theorem findAndCancelDeletedJob_result (d : DiscoveryPhase) (originalPath : QString) :
    (d._deletedItem.lookup originalPath = none →
      d._queuedDeletedDirectories.lookup originalPath = none →
      d.findAndCancelDeletedJob originalPath = ((false, []), d, [])) ∧
    (∀ item, d._deletedItem.lookup originalPath = some item →
      (d.findAndCancelDeletedJob originalPath).1 = (true, item._etag)) ∧
    (∀ job, d._deletedItem.lookup originalPath = none →
      d._queuedDeletedDirectories.lookup originalPath = some job →
      (d.findAndCancelDeletedJob originalPath).1 = (true, job.etag)) ∧
    ((d._deletedItem.lookup originalPath).isSome = true ∨
        (d._queuedDeletedDirectories.lookup originalPath).isSome = true →
      (d.findAndCancelDeletedJob originalPath).2.2
        = ((d._deletedItem.lookup originalPath).map
              (CancelledDeletion.item originalPath)).toList
          ++ ((d._queuedDeletedDirectories.lookup originalPath).map
              (CancelledDeletion.job originalPath)).toList ∧
      (d.findAndCancelDeletedJob originalPath).2.2 ≠ [] ∧
      (d.findAndCancelDeletedJob originalPath).2.1._deletedItem.lookup originalPath = none ∧
      (d.findAndCancelDeletedJob originalPath).2.1._queuedDeletedDirectories.lookup originalPath
        = none ∧
      (∀ q, q ≠ originalPath →
        (d.findAndCancelDeletedJob originalPath).2.1._deletedItem.lookup q
          = d._deletedItem.lookup q ∧
        (d.findAndCancelDeletedJob originalPath).2.1._queuedDeletedDirectories.lookup q
          = d._queuedDeletedDirectories.lookup q) ∧
      (d.findAndCancelDeletedJob originalPath).2.1
        = { d with
            _deletedItem := (d.findAndCancelDeletedJob originalPath).2.1._deletedItem,
            _queuedDeletedDirectories :=
              (d.findAndCancelDeletedJob originalPath).2.1._queuedDeletedDirectories }) := by
  refine ⟨?_, ?_, ?_, ?_⟩
  · intro h1 h2
    simp [DiscoveryPhase.findAndCancelDeletedJob, h1, h2]
  · intro item h1
    cases h2 : d._queuedDeletedDirectories.lookup originalPath <;>
      simp [DiscoveryPhase.findAndCancelDeletedJob, h1, h2]
  · intro job h1 h2
    simp [DiscoveryPhase.findAndCancelDeletedJob, h1, h2]
  · intro hpending
    have hres : (d.findAndCancelDeletedJob originalPath).2.1 =
        { d with
          _deletedItem := eraseKey d._deletedItem originalPath,
          _queuedDeletedDirectories := eraseKey d._queuedDeletedDirectories originalPath } ∧
        (d.findAndCancelDeletedJob originalPath).2.2
          = ((d._deletedItem.lookup originalPath).map
                (CancelledDeletion.item originalPath)).toList
            ++ ((d._queuedDeletedDirectories.lookup originalPath).map
                (CancelledDeletion.job originalPath)).toList ∧
        (d.findAndCancelDeletedJob originalPath).2.2 ≠ [] := by
      cases h1 : d._deletedItem.lookup originalPath with
      | some item =>
        cases h2 : d._queuedDeletedDirectories.lookup originalPath <;>
          simp [DiscoveryPhase.findAndCancelDeletedJob, h1, h2]
      | none =>
        cases h2 : d._queuedDeletedDirectories.lookup originalPath with
        | some job => simp [DiscoveryPhase.findAndCancelDeletedJob, h1, h2]
        | none => simp [h1, h2] at hpending
    obtain ⟨hstate, hcancel, hne⟩ := hres
    refine ⟨hcancel, hne, ?_⟩
    rw [hstate]
    refine ⟨lookup_eraseKey_self _ _, lookup_eraseKey_self _ _, ?_, rfl⟩
    intro q hq
    exact ⟨lookup_eraseKey_ne _ _ _ hq, lookup_eraseKey_ne _ _ _ hq⟩

/-- Witness of C4: with a deleted item of etag `[1, 2]` pending at `A/B`, the
call returns `(true, [1, 2])`, cancels that item and leaves `A/B` unbound; with
nothing pending it returns `(false, empty)`, cancels nothing and changes
nothing. -/
theorem findAndCancelDeletedJob_result_witness :
    (({ _deletedItem := [("A/B".toList, { _etag := [1, 2] })] } : DiscoveryPhase).findAndCancelDeletedJob
        "A/B".toList).1 = (true, [1, 2]) ∧
    (({ _deletedItem := [("A/B".toList, { _etag := [1, 2] })] } : DiscoveryPhase).findAndCancelDeletedJob
        "A/B".toList).2.2 = [CancelledDeletion.item "A/B".toList { _etag := [1, 2] }] ∧
    ({} : DiscoveryPhase).findAndCancelDeletedJob "A/B".toList = ((false, []), {}, []) :=
  ⟨(findAndCancelDeletedJob_result
      { _deletedItem := [("A/B".toList, { _etag := [1, 2] })] } "A/B".toList).2.1
      { _etag := [1, 2] } (by decide),
   ((findAndCancelDeletedJob_result
      { _deletedItem := [("A/B".toList, { _etag := [1, 2] })] } "A/B".toList).2.2.2
      (Or.inl (by decide))).1,
   (findAndCancelDeletedJob_result {} "A/B".toList).1 (by decide) (by decide)⟩

/-- C6. Entry validity: a `RemoteInfo` is valid exactly when its name is
present (not null), and so is a `LocalInfo`; validity is the validity of the
entry that keeps only the name and has every other field at its default, so no
other field influences it; a default-constructed entry is invalid. -/
theorem isValid_iff_name_present :
    (∀ r : RemoteInfo, r.isValid = true ↔ r.name ≠ none) ∧
    (∀ l : LocalInfo, l.isValid = true ↔ l.name ≠ none) ∧
    (∀ r : RemoteInfo, r.isValid = ({ name := r.name } : RemoteInfo).isValid) ∧
    (∀ l : LocalInfo, l.isValid = ({ name := l.name } : LocalInfo).isValid) ∧
    ({} : RemoteInfo).isValid = false ∧
    ({} : LocalInfo).isValid = false := by
  refine ⟨?_, ?_, ?_, ?_, rfl, rfl⟩
  · intro r
    cases h : r.name <;> simp [RemoteInfo.isValid, h]
  · intro l
    cases h : l.name <;> simp [LocalInfo.isValid, h]
  · intro r
    rfl
  · intro l
    rfl

/-- C9. Credential failure while connected is tolerated first: when the state
is `Connected`, `slotInvalidCredentials` leaves the account in
`TemporaryCredentialError`; the only outgoing call is the `stateChanged`
signal, so neither `fetch()` nor `invalidateAndFetch()` is called and the
outcome is the same for every credentials object; the
waiting-for-new-credentials flag keeps its value. -/
theorem slotInvalidCredentials_connected (a : AccountState) (credentials : AbstractCredentials)
    (h : a._state = State.Connected) :
    (a.slotInvalidCredentials credentials).1._state = State.TemporaryCredentialError ∧
    (a.slotInvalidCredentials credentials).2
      = [Effect.stateChanged State.TemporaryCredentialError] ∧
    Effect.credentialsFetch ∉ (a.slotInvalidCredentials credentials).2 ∧
    Effect.credentialsInvalidateAndFetch ∉ (a.slotInvalidCredentials credentials).2 ∧
    (∀ other : AbstractCredentials,
      a.slotInvalidCredentials other = a.slotInvalidCredentials credentials) ∧
    (a.slotInvalidCredentials credentials).1._waitingForNewCredentials
      = a._waitingForNewCredentials := by
  have hrun : ∀ c : AbstractCredentials, a.slotInvalidCredentials c
      = ({ a with _state := State.TemporaryCredentialError, _firstInvalidCredentialTimer := 0 },
         [Effect.stateChanged State.TemporaryCredentialError]) := by
    intro c
    simp [AccountState.slotInvalidCredentials, AccountState.isConnected,
      AccountState.setState, h]
  refine ⟨?_, ?_, ?_, ?_, ?_, ?_⟩
  · rw [hrun]
  · rw [hrun]
  · rw [hrun]; simp
  · rw [hrun]; simp
  · intro other
    rw [hrun, hrun]
  · rw [hrun]

/-- Witness of C9: a connected account with the waiting flag clear. -/
theorem slotInvalidCredentials_connected_witness :
    (({ _state := State.Connected } : AccountState).slotInvalidCredentials
        ⟨true, id, id⟩).1._state = State.TemporaryCredentialError ∧
    (({ _state := State.Connected } : AccountState).slotInvalidCredentials
        ⟨true, id, id⟩).1._waitingForNewCredentials = false :=
  ⟨(slotInvalidCredentials_connected { _state := State.Connected } ⟨true, id, id⟩ rfl).1,
   (slotInvalidCredentials_connected { _state := State.Connected } ⟨true, id, id⟩ rfl).2.2.2.2.2⟩

/-- C10. Grace period for repeated credential failures: in state
`TemporaryCredentialError`, while the first-invalid-credential timer reads less
than 35000 ms the slot changes nothing and makes no call; from 35000 ms on it
makes exactly one credentials call first (`invalidateAndFetch` when the
credentials are ready, `fetch` otherwise) and then, unless that call left the
account signed out, the state is `ConfigurationError` with the
waiting-for-new-credentials flag set; when the call left the account signed
out, the account is left as the call left it. -/
theorem slotInvalidCredentials_grace_period (a : AccountState)
    (credentials : AbstractCredentials) (h : a._state = State.TemporaryCredentialError) :
    (a._firstInvalidCredentialTimer < 35000 →
      a.slotInvalidCredentials credentials = (a, [])) ∧
    (35000 ≤ a._firstInvalidCredentialTimer →
      (a.slotInvalidCredentials credentials).2.head?
        = some (if credentials.ready then Effect.credentialsInvalidateAndFetch
                else Effect.credentialsFetch) ∧
      ((a.slotInvalidCredentials credentials).2.filter
          (fun e => e == Effect.credentialsInvalidateAndFetch || e == Effect.credentialsFetch)
        = [if credentials.ready then Effect.credentialsInvalidateAndFetch
           else Effect.credentialsFetch]) ∧
      ((if credentials.ready then credentials.invalidateAndFetch a
          else credentials.fetch a)._state ≠ State.SignedOut →
        (a.slotInvalidCredentials credentials).1._state = State.ConfigurationError ∧
        (a.slotInvalidCredentials credentials).1._waitingForNewCredentials = true) ∧
      ((if credentials.ready then credentials.invalidateAndFetch a
          else credentials.fetch a)._state = State.SignedOut →
        (a.slotInvalidCredentials credentials).1
          = (if credentials.ready then credentials.invalidateAndFetch a
             else credentials.fetch a))) := by
  constructor
  · intro hlt
    simp [AccountState.slotInvalidCredentials, AccountState.isConnected, h,
      msIgnoreCredentialError, hlt]
  · intro hge
    have hnot : ¬ a._firstInvalidCredentialTimer < 35000 := not_lt.mpr hge
    cases hr : credentials.ready
    · simp only [Bool.false_eq_true, if_false]
      by_cases hs : (credentials.fetch a)._state = State.SignedOut
      · simp [AccountState.slotInvalidCredentials, AccountState.isConnected, h,
          msIgnoreCredentialError, hnot, hr, AccountState.isSignedOut, hs]
      · by_cases hc : (credentials.fetch a)._state = State.ConfigurationError
        · simp [AccountState.slotInvalidCredentials, AccountState.isConnected, h,
            msIgnoreCredentialError, hnot, hr, AccountState.isSignedOut, hs, hc,
            AccountState.setState]
        · simp [AccountState.slotInvalidCredentials, AccountState.isConnected, h,
            msIgnoreCredentialError, hnot, hr, AccountState.isSignedOut, hs, hc,
            AccountState.setState]
    · simp only [if_true]
      by_cases hs : (credentials.invalidateAndFetch a)._state = State.SignedOut
      · simp [AccountState.slotInvalidCredentials, AccountState.isConnected, h,
          msIgnoreCredentialError, hnot, hr, AccountState.isSignedOut, hs]
      · by_cases hc : (credentials.invalidateAndFetch a)._state = State.ConfigurationError
        · simp [AccountState.slotInvalidCredentials, AccountState.isConnected, h,
            msIgnoreCredentialError, hnot, hr, AccountState.isSignedOut, hs, hc,
            AccountState.setState]
        · simp [AccountState.slotInvalidCredentials, AccountState.isConnected, h,
            msIgnoreCredentialError, hnot, hr, AccountState.isSignedOut, hs, hc,
            AccountState.setState]

/-- Witness of C10: a failure 1000 ms after the first one is ignored; a failure
40000 ms after it fetches the credentials and ends in `ConfigurationError`,
waiting for new credentials. -/
theorem slotInvalidCredentials_grace_period_witness :
    (({ _state := State.TemporaryCredentialError, _firstInvalidCredentialTimer := 1000 }
        : AccountState).slotInvalidCredentials ⟨false, id, id⟩
      = ({ _state := State.TemporaryCredentialError, _firstInvalidCredentialTimer := 1000 }, [])) ∧
    (({ _state := State.TemporaryCredentialError, _firstInvalidCredentialTimer := 40000 }
        : AccountState).slotInvalidCredentials ⟨false, id, id⟩).2.head?
      = some Effect.credentialsFetch ∧
    (({ _state := State.TemporaryCredentialError, _firstInvalidCredentialTimer := 40000 }
        : AccountState).slotInvalidCredentials ⟨false, id, id⟩).1._state
      = State.ConfigurationError ∧
    (({ _state := State.TemporaryCredentialError, _firstInvalidCredentialTimer := 40000 }
        : AccountState).slotInvalidCredentials ⟨false, id, id⟩).1._waitingForNewCredentials
      = true :=
  ⟨(slotInvalidCredentials_grace_period
      { _state := State.TemporaryCredentialError, _firstInvalidCredentialTimer := 1000 }
      ⟨false, id, id⟩ rfl).1 (by decide),
   ((slotInvalidCredentials_grace_period
      { _state := State.TemporaryCredentialError, _firstInvalidCredentialTimer := 40000 }
      ⟨false, id, id⟩ rfl).2 (by decide)).1,
   ((slotInvalidCredentials_grace_period
      { _state := State.TemporaryCredentialError, _firstInvalidCredentialTimer := 40000 }
      ⟨false, id, id⟩ rfl).2 (by decide)).2.2.1 (by decide)⟩

/-- C11. App-password hint depends on server version: for every account the
text is empty when `serverVersionInt()` is below `0x090100`; from `0x090100` on
it is the translated message with its place marker replaced by the account URL
followed by `/index.php/settings/personal?section=apppasswords`. Whenever the
translation of the message is not empty, and so for the untranslated message,
the text is empty exactly when the version is below `0x090100`; the untranslated
text is the link whose target is that URL, followed by the rest of the
message. -/
theorem requestAppPasswordText_version (tr : QString → QString) (account : Account) :
    (account.serverVersionInt < 0x090100 → requestAppPasswordText tr account = []) ∧
    (0x090100 ≤ account.serverVersionInt →
      requestAppPasswordText tr account
        = arg (tr requestAppPasswordSource)
            (account.url ++ "/index.php/settings/personal?section=apppasswords".toList)) ∧
    (tr requestAppPasswordSource ≠ [] →
      (requestAppPasswordText tr account = [] ↔ account.serverVersionInt < 0x090100)) ∧
    (requestAppPasswordText id account = [] ↔ account.serverVersionInt < 0x090100) ∧
    (0x090100 ≤ account.serverVersionInt →
      requestAppPasswordText id account
        = "<a href=\"".toList
          ++ (account.url ++ "/index.php/settings/personal?section=apppasswords".toList)
          ++ "\">Click here</a> to request an app password from the web interface.".toList) := by
  have hold : account.serverVersionInt < 0x090100 →
      ∀ t : QString → QString, requestAppPasswordText t account = [] := by
    intro h t
    simp [requestAppPasswordText, h]
  have hnew : 0x090100 ≤ account.serverVersionInt →
      ∀ t : QString → QString, requestAppPasswordText t account
        = arg (t requestAppPasswordSource) (account.url ++ requestAppPasswordPath) := by
    intro h t
    have hnot : ¬ account.serverVersionInt < 0x090100 := not_lt.mpr h
    simp [requestAppPasswordText, hnot]
  have hpath : account.url ++ requestAppPasswordPath ≠ [] := by
    simp [requestAppPasswordPath]
  have hiff : ∀ t : QString → QString, t requestAppPasswordSource ≠ [] →
      (requestAppPasswordText t account = [] ↔ account.serverVersionInt < 0x090100) := by
    intro t ht
    constructor
    · intro hempty
      by_contra hge
      rw [hnew (not_lt.mp hge) t] at hempty
      exact arg_ne_nil _ _ ht hpath hempty
    · intro hlt
      exact hold hlt t
  refine ⟨fun h => hold h tr, fun h => hnew h tr, hiff tr, ?_, ?_⟩
  · apply hiff id
    simp [requestAppPasswordSource]
  · intro h
    rw [hnew h id]
    exact arg_requestAppPasswordSource _

/-- Witness of C11: a server of version 9.0.255 gets no hint; a server of
version 9.1.0 at `https://cloud.example.org` gets the link to its personal
settings. -/
theorem requestAppPasswordText_version_witness :
    requestAppPasswordText id { serverVersionInt := 0x0900ff, url := "https://cloud.example.org".toList }
      = [] ∧
    requestAppPasswordText id { serverVersionInt := 0x090100, url := "https://cloud.example.org".toList }
      = "<a href=\"".toList
        ++ ("https://cloud.example.org".toList
            ++ "/index.php/settings/personal?section=apppasswords".toList)
        ++ "\">Click here</a> to request an app password from the web interface.".toList :=
  ⟨(requestAppPasswordText_version id
      { serverVersionInt := 0x0900ff, url := "https://cloud.example.org".toList }).1 (by decide),
   (requestAppPasswordText_version id
      { serverVersionInt := 0x090100, url := "https://cloud.example.org".toList }).2.2.2.2
      (by decide)⟩

/-- C12. Validator result to account state: for an account that is not signed
out and a validator status other than `CredentialsWrong`, after
`slotConnectionValidatorResult(status, errors)` the state is `Connected` for
`Connected`, `Disconnected` for `Undefined` and `NotConfigured`,
`ConfigurationError` for `ServerVersionMismatch`, `NetworkError` for
`StatusNotFound` and `Timeout`, `ServerMaintenance` for `ServerMaintenance` and
`SignedOut` for `UserCanceledCredentials`; for every status but
`UserCanceledCredentials`, the one that leads to `SignedOut`,
`connectionStatus()` is the given status and `connectionErrors()` the given
errors. -/
theorem slotConnectionValidatorResult_state (a : AccountState) (status : Status)
    (errors : List QString) (handleInvalidCredentials : AccountState → AccountState)
    (hsigned : a._state ≠ State.SignedOut) (hwrong : status ≠ Status.CredentialsWrong) :
    (a.slotConnectionValidatorResult status errors handleInvalidCredentials).1.state
      = (match status with
        | Status.Connected => State.Connected
        | Status.Undefined => State.Disconnected
        | Status.NotConfigured => State.Disconnected
        | Status.ServerVersionMismatch => State.ConfigurationError
        | Status.StatusNotFound => State.NetworkError
        | Status.Timeout => State.NetworkError
        | Status.ServerMaintenance => State.ServerMaintenance
        | Status.UserCanceledCredentials => State.SignedOut
        | Status.CredentialsWrong =>
          (a.slotConnectionValidatorResult status errors handleInvalidCredentials).1.state) ∧
    (status ≠ Status.UserCanceledCredentials →
      (a.slotConnectionValidatorResult status errors handleInvalidCredentials).1.connectionStatus
        = status ∧
      (a.slotConnectionValidatorResult status errors handleInvalidCredentials).1.connectionErrors
        = errors) := by
  have hso : a.isSignedOut = false := by
    simpa [AccountState.isSignedOut] using hsigned
  cases status with
  | CredentialsWrong => exact absurd rfl hwrong
  | UserCanceledCredentials =>
    simp only [AccountState.slotConnectionValidatorResult, hso, Bool.false_eq_true, if_false,
      connectionStatus_update, AccountState.state]
    exact ⟨setState_state _ _, fun h => absurd rfl h⟩
  | Connected =>
    simp only [AccountState.slotConnectionValidatorResult, hso, Bool.false_eq_true, if_false,
      connectionStatus_update, AccountState.state, AccountState.connectionStatus,
      AccountState.connectionErrors]
    exact ⟨setState_state _ _, fun _ => setState_connection _ _ (by decide)⟩
  | Undefined =>
    simp only [AccountState.slotConnectionValidatorResult, hso, Bool.false_eq_true, if_false,
      connectionStatus_update, AccountState.state, AccountState.connectionStatus,
      AccountState.connectionErrors]
    exact ⟨setState_state _ _, fun _ => setState_connection _ _ (by decide)⟩
  | NotConfigured =>
    simp only [AccountState.slotConnectionValidatorResult, hso, Bool.false_eq_true, if_false,
      connectionStatus_update, AccountState.state, AccountState.connectionStatus,
      AccountState.connectionErrors]
    exact ⟨setState_state _ _, fun _ => setState_connection _ _ (by decide)⟩
  | ServerVersionMismatch =>
    simp only [AccountState.slotConnectionValidatorResult, hso, Bool.false_eq_true, if_false,
      connectionStatus_update, AccountState.state, AccountState.connectionStatus,
      AccountState.connectionErrors]
    exact ⟨setState_state _ _, fun _ => setState_connection _ _ (by decide)⟩
  | StatusNotFound =>
    simp only [AccountState.slotConnectionValidatorResult, hso, Bool.false_eq_true, if_false,
      connectionStatus_update, AccountState.state, AccountState.connectionStatus,
      AccountState.connectionErrors]
    exact ⟨setState_state _ _, fun _ => setState_connection _ _ (by decide)⟩
  | ServerMaintenance =>
    simp only [AccountState.slotConnectionValidatorResult, hso, Bool.false_eq_true, if_false,
      connectionStatus_update, AccountState.state, AccountState.connectionStatus,
      AccountState.connectionErrors]
    exact ⟨setState_state _ _, fun _ => setState_connection _ _ (by decide)⟩
  | Timeout =>
    simp only [AccountState.slotConnectionValidatorResult, hso, Bool.false_eq_true, if_false,
      connectionStatus_update, AccountState.state, AccountState.connectionStatus,
      AccountState.connectionErrors]
    exact ⟨setState_state _ _, fun _ => setState_connection _ _ (by decide)⟩

/-- Witness of C12: a disconnected account that receives `Connected` with no
errors is connected afterwards; one that receives `Timeout` with an error is in
`NetworkError` and reports that status and that error. -/
theorem slotConnectionValidatorResult_state_witness :
    (({} : AccountState).slotConnectionValidatorResult Status.Connected [] id).1.state
      = State.Connected ∧
    (({} : AccountState).slotConnectionValidatorResult Status.Timeout
        ["timeout".toList] id).1.state = State.NetworkError ∧
    (({} : AccountState).slotConnectionValidatorResult Status.Timeout
        ["timeout".toList] id).1.connectionStatus = Status.Timeout ∧
    (({} : AccountState).slotConnectionValidatorResult Status.Timeout
        ["timeout".toList] id).1.connectionErrors = ["timeout".toList] :=
  ⟨(slotConnectionValidatorResult_state {} Status.Connected [] id (by decide) (by decide)).1,
   (slotConnectionValidatorResult_state {} Status.Timeout ["timeout".toList] id
      (by decide) (by decide)).1,
   (slotConnectionValidatorResult_state {} Status.Timeout ["timeout".toList] id
      (by decide) (by decide)).2 (by decide)⟩

end OCC
